import Mathlib

/-!
Verification development for the chat webview module
(`src/clients/vscode/src/chat/webview.ts` of the tabby repository).

The TypeScript class `ChatWebview` is embedded shallowly:

* pure helper functions become Lean functions;
* the mutable fields (`client`, `pendingActions`, `sessionStateMap`,
  `currentConfig`) become explicit state records with pure transition
  functions;
* collaborator calls (definition provider, document opening, git diff
  enumeration, workspace symbol search) become explicit parameters whose
  results are supplied as data, with `Except`/`Option` standing for
  errors caught by the surrounding `try`/`catch` and for `null`
  results;
* filepath/position conversion glue (`localUriToChatPanelFilepath`,
  `vscodePositionToChatPanelPosition`, `vscodeRangeToChatPanelLineRange`)
  is abstracted to the identity on the underlying data: documents carry
  their chat-panel filepath directly and positions are byte offsets.
-/

namespace TabbyChat

/-! ## Semantic versions

The version keys used by the module (`"0.8.0"`, `"0.10.0"`, `"0.27.0"`)
are plain `major.minor.patch` triples, so versions are modelled as
numeric triples; pre-release and build-metadata forms of full semver are
outside the modelled fragment. -/

def digitsToNat? (cs : List Char) : Option Nat :=
  if cs.length > 0 && cs.all Char.isDigit then
    some (cs.foldl (fun n c => n * 10 + (c.toNat - '0'.toNat)) 0)
  else none

/-- Split a character list on `'.'` (the effect of `splitOn "."`). -/
def splitDots : List Char → List (List Char)
  | [] => [[]]
  | c :: rest =>
    if c == '.' then [] :: splitDots rest
    else
      match splitDots rest with
      | [] => [[c]]
      | g :: gs => (c :: g) :: gs

/-- Parse a `major.minor.patch` version string into a numeric triple. -/
def parseSemver (s : String) : Option (Nat × Nat × Nat) :=
  match splitDots s.data with
  | [a, b, c] =>
    match digitsToNat? a, digitsToNat? b, digitsToNat? c with
    | some x, some y, some z => some (x, y, z)
    | _, _, _ => none
  | _ => none

/-- `semver.valid(key)` of the `semver` npm package, restricted to the
numeric-triple fragment used by the module. -/
def semverValid (s : String) : Bool :=
  (parseSemver s).isSome

/-- Lexicographic greater-or-equal on parsed version triples. -/
def tripleGe (a b : Nat × Nat × Nat) : Bool :=
  a.1 > b.1 || (a.1 == b.1 && (a.2.1 > b.2.1 || (a.2.1 == b.2.1 && a.2.2 ≥ b.2.2)))

/-- Modelled from the spec: `isCompatible` lives in
`src/clients/vscode/src/chat/utils.ts`, which is not under `src/`; the
spec (§4.1) defines compatibility as "greater-or-equal under semantic
versioning". -/
def isCompatible (w v : String) : Bool :=
  match parseSemver w, parseSemver v with
  | some a, some b => tripleGe a b
  | _, _ => false

/-- Propositional version order used on the specification side of the
capability claim: both strings parse and the parsed triples are ordered
lexicographically. -/
def SemverGe (w v : String) : Prop :=
  ∃ a b, parseSemver w = some a ∧ parseSemver v = some b ∧
    (b.1 < a.1 ∨ (b.1 = a.1 ∧ (b.2.1 < a.2.1 ∨ (b.2.1 = a.2.1 ∧ b.2.2 ≤ a.2.2))))

/-! ## The capability handle

`ServerApiList` maps version-string keys to the group of operations that
version exposes; it is modelled as an association list from version key
to the list of operation names of that group (JavaScript object keys
enumerate in insertion order, which an association list preserves). -/

abbrev ApiHandle := List (String × List String)

def lookupKey (h : ApiHandle) (k : String) : Option (List String) :=
  (h.find? (fun e => e.1 == k)).map (fun e => e.2)

/-- `getApiVersions`: `Object.keys(this.client ?? {}).filter((key) => semver.valid(key))`. -/
def getApiVersions (client : Option ApiHandle) : List String :=
  ((client.getD []).map (fun e => e.1)).filter semverValid

/-- `isTerminalContextEnabled`:
`this.getApiVersions()?.some((version) => isCompatible(version, "0.10.0")) ?? false`. -/
def isTerminalContextEnabled (client : Option ApiHandle) : Bool :=
  (getApiVersions client).any (fun version => isCompatible version "0.10.0")

/-- Modelled from the spec: the general capability check
`hasCapability(version, op)` named in §4.1 has no single function in the
source file (the file instantiates the pattern per call site); per the
spec it holds iff the handle exposes `op` under a valid version key
compatible with `version`. -/
def hasCapability (client : Option ApiHandle) (v : String) (op : String) : Bool :=
  (client.getD []).any (fun e => semverValid e.1 && isCompatible e.1 v && e.2.contains op)

/-! ## Host-to-panel operations and the deferred action queue -/

/-- An `EditorContext`; only the `kind === "terminal"` discrimination is
relevant to dispatch, the payload is abstracted to a tag. -/
inductive EditorCtx where
  | terminal (payload : Nat)
  | file (payload : Nat)
deriving DecidableEq, Repr

def EditorCtx.isTerminal : EditorCtx → Bool
  | .terminal _ => true
  | .file _ => false

/-- A message dispatched to the chat panel, recording which version
group's operation was invoked and with what argument. -/
inductive PanelMsg where
  | updateActiveSelection (ver : String) (sel : Nat)
  | addRelevantContext (ver : String) (ctx : EditorCtx)
  | executeCommand (ver : String) (cmd : String)
  | initPanel
  | showChatPanel
deriving DecidableEq, Repr

/-- The host-to-panel operations that follow the two-path
(direct-or-enqueue) shape: `setActiveSelection`, `addRelevantContext`,
`executeCommand`.  A pending action is a closure over exactly this
data, so the queue is modelled as a list of `HostOp`. -/
inductive HostOp where
  | setActiveSelection (sel : Nat)
  | addRelevantContext (ctx : EditorCtx)
  | executeCommand (cmd : String)
deriving DecidableEq, Repr

/-- The version key through which an operation is invoked: terminal
contexts and `"explain-terminal"` go through `client["0.10.0"]`, all
other invocations through `client["0.8.0"]`. -/
def versionKeyOf : HostOp → String
  | .setActiveSelection _ => "0.8.0"
  | .addRelevantContext ctx => if ctx.isTerminal then "0.10.0" else "0.8.0"
  | .executeCommand cmd => if cmd == "explain-terminal" then "0.10.0" else "0.8.0"

/-- The messages an operation dispatches when the handle is available,
assuming (as the `ServerApiList` type guarantees) that the `"0.8.0"`
group is present.  `client["0.10.0"]?.…` is optional chaining: an absent
`"0.10.0"` key dispatches nothing. -/
def opMsgs (h : ApiHandle) : HostOp → List PanelMsg
  | .setActiveSelection sel => [.updateActiveSelection "0.8.0" sel]
  | .addRelevantContext ctx =>
    if ctx.isTerminal then
      match lookupKey h "0.10.0" with
      | some _ => [.addRelevantContext "0.10.0" ctx]
      | none => []
    else [.addRelevantContext "0.8.0" ctx]
  | .executeCommand cmd =>
    if cmd == "explain-terminal" then
      match lookupKey h "0.10.0" with
      | some _ => [.executeCommand "0.10.0" cmd]
      | none => []
    else [.executeCommand "0.8.0" cmd]

/-- Performing an operation against a handle.  Member access on the
required `"0.8.0"` key is not optional-chained in the source, so a
handle lacking it would raise a `TypeError`; the optional `"0.10.0"`
accesses use `?.` and silently dispatch nothing. -/
def performOp (h : ApiHandle) (op : HostOp) : Except String (List PanelMsg) :=
  if versionKeyOf op == "0.8.0" && (lookupKey h "0.8.0").isNone then
    .error "TypeError: cannot read properties of undefined"
  else .ok (opMsgs h op)

/-- The mutable fields of `ChatWebview` relevant to the deferred-action
behaviour: the client handle, the pending-action queue, and the trace of
messages dispatched to the panel so far. -/
structure WebviewState where
  client : Option ApiHandle
  pendingActions : List HostOp
  sent : List PanelMsg
deriving DecidableEq, Repr

/-- The shared two-path shape of `setActiveSelection`,
`addRelevantContext` and `executeCommand`: if the handle exists, invoke
directly; else push a pending action performing the same invocation. -/
def invokeHostOp (op : HostOp) (st : WebviewState) : Except String WebviewState :=
  match st.client with
  | some h => (performOp h op).map (fun msgs => { st with sent := st.sent ++ msgs })
  | none => .ok { st with pendingActions := st.pendingActions ++ [op] }

/-- Running the queued actions in order against the freshly set handle
(`this.pendingActions.forEach(async (fn) => { await fn(); })`): each
closure re-reads `this.client`, which `initChatPanel` has just set. -/
def flushPending (h : ApiHandle) : List HostOp → Except String (List PanelMsg)
  | [] => .ok []
  | op :: rest =>
    match performOp h op with
    | .error e => .error e
    | .ok msgs =>
      match flushPending h rest with
      | .error e => .error e
      | .ok more => .ok (msgs ++ more)

/-- `initChatPanel`: set `this.client`, run every pending action in
order, clear the queue, call `client["0.8.0"].init(...)`, then post
`showChatPanel`. -/
def initChatPanel (h : ApiHandle) (st : WebviewState) : Except String WebviewState :=
  match flushPending h st.pendingActions with
  | .error e => .error e
  | .ok flushed =>
    match lookupKey h "0.8.0" with
    | none => .error "TypeError: cannot read properties of undefined"
    | some _ =>
      .ok { client := some h
            pendingActions := []
            sent := st.sent ++ flushed ++ [.initPanel, .showChatPanel] }

/-! ## Session state store

`sessionStateMap : Map<string, Record<string, unknown>>`, keyed by the
current endpoint (`""` when no config).  A JavaScript object
(`Record<string, unknown>`) is modelled as an association list with
string keys in insertion order: assigning an existing key updates it in
place, assigning a new key appends it.  The opaque `unknown` values are
modelled as `Int`. -/

abbrev JsRecord := List (String × Int)

def jsGet? (r : JsRecord) (k : String) : Option Int :=
  (r.find? (fun e => e.1 == k)).map (fun e => e.2)

/-- The JavaScript `key in object` test. -/
def jsHas (r : JsRecord) (k : String) : Bool :=
  (jsGet? r k).isSome

/-- JavaScript property assignment `r[k] = v`. -/
def jsSet (r : JsRecord) (k : String) (v : Int) : JsRecord :=
  if jsHas r k then r.map (fun e => if e.1 == k then (k, v) else e)
  else r ++ [(k, v)]

/-- The object spread `{...a, ...b}`: keys of `a` in order, then new
keys of `b`, with `b`'s values overriding. -/
def jsMerge (a b : JsRecord) : JsRecord :=
  b.foldl (fun acc e => jsSet acc e.1 e.2) a

abbrev SessionMap := List (String × JsRecord)

def mapGet? (m : SessionMap) (k : String) : Option JsRecord :=
  (m.find? (fun e => e.1 == k)).map (fun e => e.2)

/-- `Map.prototype.set`: update in place or append. -/
def mapSet (m : SessionMap) (k : String) (v : JsRecord) : SessionMap :=
  if (mapGet? m k).isSome then m.map (fun e => if e.1 == k then (k, v) else e)
  else m ++ [(k, v)]

/-- The fields of `ChatWebview` relevant to session state: the current
server config's endpoint and the endpoint-keyed state map. -/
structure SessionStore where
  currentEndpoint : Option String
  sessionStateMap : SessionMap
deriving DecidableEq, Repr

/-- The partition the store currently reads and writes:
`this.sessionStateMap.get(this.currentConfig?.endpoint ?? "") ?? {}`. -/
def activePartition (st : SessionStore) : JsRecord :=
  (mapGet? st.sessionStateMap (st.currentEndpoint.getD "")).getD []

/-- `fetchSessionState(keys?)`: a shallow copy of the endpoint-scoped
state; with `keys` given, only the listed keys that are present. -/
def fetchSessionState (st : SessionStore) (keys : Option (List String)) : JsRecord :=
  let sessionState := activePartition st
  match keys with
  | none => sessionState
  | some ks =>
    ks.foldl
      (fun filtered key =>
        if jsHas sessionState key then jsSet filtered key ((jsGet? sessionState key).getD 0)
        else filtered)
      []

/-- `storeSessionState(state)`: shallow-merge into the endpoint-scoped
partition, creating it if absent. -/
def storeSessionState (st : SessionStore) (state : JsRecord) : SessionStore :=
  let key := st.currentEndpoint.getD ""
  let sessionState := (mapGet? st.sessionStateMap key).getD []
  { st with sessionStateMap := mapSet st.sessionStateMap key (jsMerge sessionState state) }

/-! ## Change collection (`getChanges`)

`gitProvider.getDiff(repo, staged)` is modelled by per-repository diff
lists (`none` when the provider returns nothing).  Character counts are
`Int`s because the JavaScript arithmetic `maxChars - stagedCharCount`
is unbounded. -/

structure GitRepo where
  stagedDiffs : Option (List String)
  unstagedDiffs : Option (List String)
deriving DecidableEq, Repr

structure ChangeItem where
  content : String
  staged : Bool
deriving DecidableEq, Repr

def GitRepo.getDiff (repo : GitRepo) (staged : Bool) : Option (List String) :=
  if staged then repo.stagedDiffs else repo.unstagedDiffs

/-- The inner `for (const diff of diffs)` loop of `getRepoChanges`:
returns the collected items and the updated running character count.
The first diff that would push the running count past the limit breaks
the loop (no partial truncation, no skipping ahead). -/
def collectDiffs (staged : Bool) (charLimit : Option Int) :
    List String → Int → List ChangeItem × Int
  | [], currentCharCount => ([], currentCharCount)
  | diff :: rest, currentCharCount =>
    let diffChars : Int := diff.length
    match charLimit with
    | some l =>
      if currentCharCount + diffChars > l then ([], currentCharCount)
      else
        let (items, c) := collectDiffs staged charLimit rest (currentCharCount + diffChars)
        (⟨diff, staged⟩ :: items, c)
    | none =>
      let (items, c) := collectDiffs staged charLimit rest (currentCharCount + diffChars)
      (⟨diff, staged⟩ :: items, c)

/-- The outer `for (const repo of repos)` loop of `getRepoChanges`:
after each repository, the whole phase stops only when the running
count has reached the limit. -/
def getRepoChangesAux (staged : Bool) (charLimit : Option Int) :
    List GitRepo → Int → List ChangeItem
  | [], _ => []
  | repo :: rest, currentCharCount =>
    match repo.getDiff staged with
    | none => getRepoChangesAux staged charLimit rest currentCharCount
    | some diffs =>
      let (items, c) := collectDiffs staged charLimit diffs currentCharCount
      match charLimit with
      | some l =>
        if c ≥ l then items
        else items ++ getRepoChangesAux staged charLimit rest c
      | none => items ++ getRepoChangesAux staged charLimit rest c

/-- `getRepoChanges(repos, staged, charLimit)`. -/
def getRepoChanges (repos : List GitRepo) (staged : Bool) (charLimit : Option Int) :
    List ChangeItem :=
  match charLimit with
  | some l => if l ≤ 0 then [] else getRepoChangesAux staged charLimit repos 0
  | none => getRepoChangesAux staged charLimit repos 0

def changeChars (items : List ChangeItem) : Int :=
  items.foldl (fun count item => count + item.content.length) 0

/-- `getChanges(params)`: staged diffs first under `maxChars`, then
unstaged diffs under `maxChars` minus the characters consumed by the
staged phase. -/
def getChanges (gitApiAvailable : Bool) (repositories : Option (List GitRepo))
    (maxChars : Option Int) : List ChangeItem :=
  if !gitApiAvailable then []
  else
    match repositories with
    | none => []
    | some repos =>
      let stagedChanges := getRepoChanges repos true maxChars
      let stagedCharCount := changeChars stagedChanges
      let remainingChars := maxChars.map (fun m => m - stagedCharCount)
      let unstagedChanges := getRepoChanges repos false remainingChars
      stagedChanges ++ unstagedChanges

/-! ## Symbol lookup (`lookupSymbol`)

Text documents are modelled as lists of lines of characters; the
offsets handed to the definition provider are byte offsets into the
full text (`document.positionAt` / `offsetAt` glue is kept at the
offset level).  The definition provider
(`vscode.executeDefinitionProvider`) is a parameter mapping a document
uri and an offset to the list of found definitions; `Location` and
`LocationLink` results both reduce to a target uri plus range, which is
all the module extracts from them. -/

structure CRange where
  startLine : Nat
  startChar : Nat
  endLine : Nat
  endChar : Nat
deriving DecidableEq, Repr

/-- `Range.isEmpty`: start and end coincide (a single point). -/
def CRange.isEmpty (r : CRange) : Bool :=
  r.startLine == r.endLine && r.startChar == r.endChar

structure TextDoc where
  uri : Nat
  lines : List (List Char)
deriving DecidableEq, Repr

def TextDoc.lineCount (d : TextDoc) : Nat := d.lines.length

/-- `document.getText()`: lines joined by newlines. -/
def TextDoc.fullText (d : TextDoc) : List Char :=
  List.intercalate ['\n'] d.lines

/-- `document.offsetAt(position)` after position validation: a line at
or past the end of the document maps to the end of the text, a
character past the end of its line is clamped to the line length. -/
def TextDoc.offsetAt (d : TextDoc) (line char : Nat) : Nat :=
  if line ≥ d.lines.length then d.fullText.length
  else ((d.lines.take line).map (fun l => l.length + 1)).sum + min char (d.lines.getD line []).length

/-- `document.getText(range)`: the slice of the full text between the
offsets of the range's endpoints. -/
def TextDoc.getText (d : TextDoc) (r : CRange) : List Char :=
  let a := d.offsetAt r.startLine r.startChar
  let b := d.offsetAt r.endLine r.endChar
  (d.fullText.drop a).take (b - a)

/-- The character class `\w` of JavaScript regular expressions. -/
def isWordChar (c : Char) : Bool :=
  c.isAlphanum || c == '_'

/-- The guard `symbol.match(/^[a-zA-Z_][a-zA-Z0-9_]*$/)`. -/
def isSimpleIdentifier (s : String) : Bool :=
  match s.data with
  | [] => false
  | c :: cs => (c.isAlpha || c == '_') && cs.all isWordChar

def sliceEq (content : List Char) (i : Nat) (pat : List Char) : Bool :=
  (content.drop i).take pat.length == pat

/-- An exact word-boundary match of `pat` at index `i` of `content`
(the regular expression `` \b … \b `` built by `findSymbolInContent`):
the pattern occurs at `i`, and neither neighbour is a word character.
Since an identifier consists of word characters only, successive
`exec` matches of the global regexp enumerate exactly these indices in
increasing order. -/
def wordMatchAt (pat content : List Char) (i : Nat) : Bool :=
  sliceEq content i pat
    && (i == 0 || !isWordChar (content.getD (i - 1) ' '))
    && (i + pat.length ≥ content.length || !isWordChar (content.getD (i + pat.length) ' '))

def wordOccurrences (pat content : List Char) : List Nat :=
  (List.range (content.length + 1)).filter (fun i => wordMatchAt pat content i)

/-- A definition result: target uri and target range, the data the
module extracts from either a `Location` or a `LocationLink`. -/
structure DefLoc where
  uri : Nat
  rangeStart : Nat
  rangeEnd : Nat
deriving DecidableEq, Repr

/-- The definition provider collaborator, as a function from document
uri and offset to the (possibly empty) list of definitions. -/
abbrev DefProvider := Nat → Nat → List DefLoc

structure SymbolInfo where
  sourceUri : Nat
  sourceOffset : Nat
  target : DefLoc
deriving DecidableEq, Repr

/-- `findSymbolInContent(content, offsetInDocument)`: scan the
word-boundary occurrences of the symbol in textual order; the first one
for which the definition provider returns at least one location wins,
and the first returned location becomes the target. -/
def findSymbolInContent (dp : DefProvider) (docUri : Nat) (pat : List Char)
    (content : List Char) (offsetInDocument : Nat) : Option SymbolInfo :=
  (wordOccurrences pat content).findSome? fun i =>
    match dp docUri (offsetInDocument + i) with
    | [] => none
    | loc :: _ => some ⟨docUri, offsetInDocument + i, loc⟩

/-- A `LookupSymbolHint` together with the environment's responses for
it: the truthiness of `hint.filepath`, the result of
`chatPanelFilepathToLocalUri` (`none` when resolution fails), the
outcome of `workspace.openTextDocument` (`Except.error` when it
throws), and `hint.location` with the result of
`chatPanelLocationToVSCodeRange` (`some none` when the conversion
returns `null`). -/
structure LookupHint where
  hasFilepath : Bool
  uri : Option Nat
  docResult : Except String TextDoc
  location : Option (Option CRange)
deriving Repr

/-- The body of the per-hint iteration for one resolved document:
windowed search first (non-empty ranges searched as given, an empty
range widened to start-of-its-line .. end-of-file), then the
full-content fallback. -/
def lookupInDocument (dp : DefProvider) (symbol : String) (document : TextDoc)
    (location : Option (Option CRange)) : Option SymbolInfo :=
  let windowed : Option SymbolInfo :=
    match location with
    | some (some loc) =>
      let range : CRange :=
        if !loc.isEmpty then loc
        else ⟨loc.startLine, 0, document.lineCount, 0⟩
      let content := document.getText range
      let offset := document.offsetAt range.startLine range.startChar
      findSymbolInContent dp document.uri symbol.data content offset
    | some none => none
    | none => none
  match windowed with
  | some s => some s
  | none => findSymbolInContent dp document.uri symbol.data document.fullText 0

/-- The `for (const hint of hints ?? [])` loop of `lookupSymbol`:
hints with a falsy filepath, an unresolvable filepath, or a document
that fails to open are skipped; the first hint that yields a result
returns it. -/
def lookupSymbolGo (dp : DefProvider) (symbol : String) : List LookupHint → Option SymbolInfo
  | [] => none
  | hint :: rest =>
    if !hint.hasFilepath then lookupSymbolGo dp symbol rest
    else
      match hint.uri with
      | none => lookupSymbolGo dp symbol rest
      | some _ =>
        match hint.docResult with
        | .error _ => lookupSymbolGo dp symbol rest
        | .ok document =>
          match lookupInDocument dp symbol document hint.location with
          | some s => some s
          | none => lookupSymbolGo dp symbol rest

/-- `lookupSymbol(symbol, hints)`. -/
def lookupSymbol (dp : DefProvider) (symbol : String) (hints : List LookupHint) :
    Option SymbolInfo :=
  if !isSimpleIdentifier symbol then none
  else lookupSymbolGo dp symbol hints

/-! ## Symbol listing (`listSymbols`)

The document symbol provider returns a tree of `DocumentSymbol`s or a
flat list of `SymbolInformation`s; both shapes are covered by one
inductive whose `doc` constructor carries children.  `LineRange` is the
chat-panel line range (`vscodeRangeToChatPanelLineRange` glue kept as
identity); its second field is called `stop` because `end` is a Lean
keyword. -/

structure LineRange where
  start : Int
  stop : Int
deriving DecidableEq, Repr

inductive DocSymbolNode where
  | doc (name detail : String) (range : LineRange) (children : List DocSymbolNode)
  | info (name : String) (containerName : Option String) (range : LineRange)
deriving Repr

/-- The shape produced by the BFS: the name, container (the
`SymbolInformation` constructor's third argument, which for a converted
`DocumentSymbol` receives its `detail`) and range of a symbol. -/
structure SymbolInformation where
  name : String
  containerName : Option String
  range : LineRange
deriving DecidableEq, Repr

mutual
def nodeSize : DocSymbolNode → Nat
  | .info _ _ _ => 1
  | .doc _ _ _ cs => 1 + listSize cs
def listSize : List DocSymbolNode → Nat
  | [] => 0
  | c :: cs => nodeSize c + listSize cs
end

/-- The BFS loop of `getDocumentSymbols`.  Every iteration of the
source's `while (queue.length > 0 && result.length < limit)` loop
appends exactly one symbol to `result` and dequeues one node (pushing
its children), so the remaining capacity `limit - result.length`
decreases by one per iteration and serves here as the structural
recursion argument; when it reaches zero the loop exits regardless of
the queue. -/
def bfsTake : Nat → List DocSymbolNode → List SymbolInformation
  | 0, _ => []
  | _, [] => []
  | capacity + 1, cur :: rest =>
    match cur with
    | .doc name detail range children =>
      ⟨name, some detail, range⟩ :: bfsTake capacity (rest ++ children)
    | .info name container range =>
      ⟨name, container, range⟩ :: bfsTake capacity rest

/-- `getDocumentSymbols(editor)` for a given (already normalized)
`limit` and the provider's symbol list. -/
def getDocumentSymbols (limit : Nat) (symbols : List DocSymbolNode) :
    List SymbolInformation :=
  bfsTake limit symbols

/-- Specification-side full breadth-first flattening (no truncation):
the BFS run with enough capacity for every node. -/
def bfsFlatten (symbols : List DocSymbolNode) : List SymbolInformation :=
  bfsTake (listSize symbols) symbols

/-- `s.toLowerCase()` on JavaScript strings (character-wise lowering,
which agrees with JavaScript on the identifiers at play). -/
def jsToLower (s : String) : String :=
  String.mk (s.data.map Char.toLower)

/-- `a.includes(b)` on JavaScript strings: `b` occurs as a contiguous
substring of `a`. -/
def jsIncludes (a b : String) : Bool :=
  (List.range (a.data.length + 1)).any fun i =>
    (a.data.drop i).take b.data.length == b.data

/-- `a.startsWith(b)` on JavaScript strings. -/
def jsStartsWith (a b : String) : Bool :=
  a.data.take b.data.length == b.data

/-- `filterSymbols(symbols, query)`: case-insensitive substring match
against the symbol name or its container name (optional chaining on
`containerName` makes a missing container a non-match). -/
def filterSymbols (symbols : List SymbolInformation) (query : String) :
    List SymbolInformation :=
  let lowerQuery := jsToLower query
  symbols.filter fun s =>
    jsIncludes (jsToLower s.name) lowerQuery
      || (match s.containerName with
          | some c => jsIncludes (jsToLower c) lowerQuery
          | none => false)

structure ListSymbolItem where
  filepath : String
  range : LineRange
  label : String
deriving DecidableEq, Repr

/-- `getWorkspaceSymbols(query)`: the workspace symbol provider's
results mapped to items, with any thrown error degraded to an empty
list.  The provider response is supplied already in item form (the
uri-to-filepath and range mapping glue is the identity here). -/
def getWorkspaceSymbols (wsResult : Except String (List ListSymbolItem)) :
    List ListSymbolItem :=
  match wsResult with
  | .error _ => []
  | .ok items => items

/-- `getMatchScore(label)` inside `mergeResults`. -/
def getMatchScore (query label : String) : Int :=
  let lowerLabel := jsToLower label
  let lowerQuery := jsToLower query
  if lowerLabel == lowerQuery then 3
  else if jsStartsWith lowerLabel lowerQuery then 2
  else if jsIncludes lowerLabel lowerQuery then 1
  else 0

/-- The dedup key
`` `${item.filepath}-${item.label}-${item.range.start}-${item.range.end}` ``.
`item.filepath` is a tabby-chat-panel `Filepath`, a tagged-union
object, and a plain object interpolates into a JavaScript template
literal as the constant string `"[object Object]"` — so the filepath
component of the key never discriminates, and the key effectively
identifies items by label and range alone. -/
def dedupKey (item : ListSymbolItem) : String :=
  s!"[object Object]-{item.label}-{item.range.start}-{item.range.stop}"

/-- The dedup loop of `mergeResults`: a `Set` of already-seen keys
(modelled as a list queried by membership) and first-occurrence-kept
accumulation. -/
def dedupAux (seen : List String) : List ListSymbolItem → List ListSymbolItem
  | [] => []
  | item :: rest =>
    let key := dedupKey item
    if seen.contains key then dedupAux seen rest
    else item :: dedupAux (key :: seen) rest

/-- The sort comparator of `mergeResults` expressed as a boolean
"`a` may come before `b`" relation: the comparator returns
`scoreB - scoreA` when the scores differ and
`a.label.length - b.label.length` otherwise, so `a` precedes `b`
exactly when the comparator is non-positive. -/
def sortLe (query : String) (a b : ListSymbolItem) : Bool :=
  let scoreA := getMatchScore query a.label
  let scoreB := getMatchScore query b.label
  (scoreB < scoreA) || (scoreA == scoreB && a.label.length ≤ b.label.length)

/-- Stable insertion: the new element goes after every existing element
that may precede it. -/
def stableInsert (le : ListSymbolItem → ListSymbolItem → Bool) (x : ListSymbolItem) :
    List ListSymbolItem → List ListSymbolItem
  | [] => [x]
  | y :: ys => if le y x then y :: stableInsert le x ys else x :: y :: ys

/-- `Array.prototype.sort` with a consistent comparator is a stable
sort, and for a total preorder the stable sorted permutation is unique;
insertion sort (stable by construction) therefore computes the same
list. -/
def jsSortStable (le : ListSymbolItem → ListSymbolItem → Bool)
    (items : List ListSymbolItem) : List ListSymbolItem :=
  items.foldl (fun acc x => stableInsert le x acc) []

/-- `mergeResults(local, workspace, query, limit)`. -/
def mergeResults (localItems workspaceItems : List ListSymbolItem) (query : String)
    (limit : Nat) : List ListSymbolItem :=
  let allItems := localItems ++ workspaceItems
  let uniqueItems := dedupAux [] allItems
  (jsSortStable (sortLe query) uniqueItems).take limit

/-- `symbolToItem(symbol, filepath)`. -/
def symbolToItem (filepath : String) (s : SymbolInformation) : ListSymbolItem :=
  ⟨filepath, s.range, s.name⟩

/-- The normalization `if (!limit || limit < 0) { limit = 20 }`
(`!limit` is true for a missing argument and for `0`). -/
def effectiveLimit (limitParam : Option Int) : Int :=
  match limitParam with
  | none => 20
  | some n => if n == 0 || n < 0 then 20 else n

/-- `listSymbols(params)`: the active editor supplies the document's
symbol tree and its chat-panel filepath; `wsResult` is the workspace
symbol provider's outcome.  The limits appearing here are positive
JavaScript integers, so the `Int`-to-`Nat` conversion is exact. -/
def listSymbols (query : String) (limitParam : Option Int)
    (editor : Option (List DocSymbolNode × String))
    (wsResult : Except String (List ListSymbolItem)) : List ListSymbolItem :=
  match editor with
  | none => []
  | some (docSymbols, filepath) =>
    let limit := (effectiveLimit limitParam).toNat
    let defaultSymbols := getDocumentSymbols limit docSymbols
    if query == "" then
      (defaultSymbols.take limit).map (symbolToItem filepath)
    else
      mergeResults ((filterSymbols defaultSymbols query).map (symbolToItem filepath))
        (getWorkspaceSymbols wsResult) query limit

/-! ## Specification-side functions and concrete inputs -/

/-- Specification-side total character length of a list of diffs. -/
def sumDiffLen (ds : List String) : Int :=
  (ds.map (fun d => (d.length : Int))).sum

/-- Specification-side first-occurrence deduplication by `dedupKey`. -/
def dedupFirst : List ListSymbolItem → List ListSymbolItem
  | [] => []
  | x :: xs => x :: dedupFirst (xs.filter (fun y => !(dedupKey y == dedupKey x)))
termination_by l => l.length
decreasing_by
  simp only [List.length_cons]
  exact Nat.lt_succ_of_le (List.length_filter_le _ _)

/-- A handle exposing only the `"0.8.0"` group plus a non-version key
(such as the `refresh` callback slot). -/
def exHandle08 : ApiHandle :=
  [("0.8.0", ["init", "updateTheme", "updateActiveSelection", "addRelevantContext",
              "executeCommand", "navigate"]),
   ("refresh", [])]

/-- A handle exposing both version groups. -/
def exHandle10 : ApiHandle :=
  exHandle08 ++ [("0.10.0", ["addRelevantContext", "executeCommand"])]

def exPendingState : WebviewState :=
  ⟨none, [.setActiveSelection 1, .addRelevantContext (.file 2), .executeCommand "explain-this"], []⟩

/-- Diff strings of fixed lengths for the change-collection scenarios. -/
def exD80 : String := String.mk (List.replicate 80 'a')
def exD50 : String := String.mk (List.replicate 50 'b')
def exD60 : String := String.mk (List.replicate 60 'c')
def exD30 : String := String.mk (List.replicate 30 'd')

/-- One repository: staged diffs totalling 80 chars, one unstaged diff
of 50 chars (the spec's worked example). -/
def exRepoSingle : List GitRepo := [⟨some [exD80], some [exD50]⟩]

/-- Two repositories with staged diffs of 60 and 30 characters. -/
def exRepoPair : List GitRepo := [⟨some [exD60], some []⟩, ⟨some [exD30], some []⟩]

/-- A six-line document whose only occurrence of `x` is on line 0. -/
def exDoc : TextDoc := ⟨0, ["x = 1".data, [], [], [], [], "y".data]⟩

/-- A definition provider that knows a definition only at offset 0 of
any document. -/
def exDp : DefProvider := fun _ o => if o == 0 then [⟨7, 0, 1⟩] else []

/-- A hint whose location is present but empty: a single point at
line 5, character 0. -/
def exHintLine5 : LookupHint := ⟨true, some 0, .ok exDoc, some (some ⟨5, 0, 5, 0⟩)⟩

/-- A six-line document whose only occurrence of `x` is on line 5. -/
def exDocAfter : TextDoc := ⟨0, [[], [], [], [], [], "x".data]⟩

/-- A definition provider that knows a definition only at offset 5. -/
def exDpAfter : DefProvider := fun _ o => if o == 5 then [⟨9, 0, 1⟩] else []

def exHintAfter : LookupHint := ⟨true, some 0, .ok exDocAfter, some (some ⟨5, 0, 5, 0⟩)⟩

/-- A hint that fails to resolve (no uri for its filepath). -/
def exHintBad : LookupHint := ⟨true, none, .error "unresolved", none⟩

/-- A definition provider that never finds anything. -/
def exDpNone : DefProvider := fun _ _ => []

/-- Eight top-level document symbols, each with a child. -/
def exEightSymbols : List DocSymbolNode :=
  (List.range 8).map fun i =>
    .doc (toString i) "" ⟨Int.ofNat i, Int.ofNat i⟩
      [.info (toString i ++ "-child") none ⟨Int.ofNat i, Int.ofNat i⟩]

/-- Twenty-five flat document symbols. -/
def exManySymbols : List DocSymbolNode :=
  (List.range 25).map fun i => .info (toString i) none ⟨Int.ofNat i, Int.ofNat i⟩

/-- Local item labelled `foo` and workspace item labelled `Foo`. -/
def exFooLocal : ListSymbolItem := ⟨"local.ts", ⟨1, 2⟩, "foo"⟩
def exFooWs : ListSymbolItem := ⟨"ws.ts", ⟨3, 4⟩, "Foo"⟩

/-- Two items with different composite keys `(filepath, label,
range-start, range-end)` — the filepaths differ — whose rendered key
strings coincide, both being `"[object Object]-foo-1-2"`: the filepath
objects interpolate as the same constant. -/
def exCollideLocal : ListSymbolItem := ⟨"local.ts", ⟨1, 2⟩, "foo"⟩
def exCollideWs : ListSymbolItem := ⟨"ws.ts", ⟨1, 2⟩, "foo"⟩

/-! ## Supporting lemmas -/

theorem performOp_ok (h : ApiHandle) (ops : List String)
    (h08 : lookupKey h "0.8.0" = some ops) (op : HostOp) :
    performOp h op = .ok (opMsgs h op) := by
  simp [performOp, h08]

theorem flushPending_ok (h : ApiHandle) (ops : List String)
    (h08 : lookupKey h "0.8.0" = some ops) :
    ∀ l : List HostOp, flushPending h l = .ok ((l.map (opMsgs h)).flatten)
  | [] => by simp [flushPending]
  | op :: rest => by
    simp [flushPending, performOp_ok h ops h08 op, flushPending_ok h ops h08 rest]

theorem isCompatible_iff (w v : String) :
    isCompatible w v = true ↔ SemverGe w v := by
  unfold isCompatible SemverGe
  cases hw : parseSemver w with
  | none => simp [hw]
  | some a =>
    cases hv : parseSemver v with
    | none => simp [hv]
    | some b =>
      simp only [hw, hv, Option.some.injEq, exists_eq_left', exists_and_left, exists_eq_left,
        tripleGe, Bool.or_eq_true, Bool.and_eq_true, decide_eq_true_eq, beq_iff_eq]
      omega

/-! ## Claims -/

/-- **C1.** Every host-to-panel operation (set selection, add context,
run a command) invoked while the client handle is undefined enqueues a
pending action performing the same invocation; `initChatPanel` sets the
handle and then executes every pending action, in the exact order
enqueued, exactly once each, clearing the queue, before the panel's
`init` call and the `showChatPanel` message. -/
theorem deferred_actions_flushed_in_order (h : ApiHandle) (st : WebviewState)
    (ops : List String) (h08 : lookupKey h "0.8.0" = some ops) :
    (∀ op : HostOp, st.client = none →
      invokeHostOp op st = .ok { st with pendingActions := st.pendingActions ++ [op] }) ∧
    initChatPanel h st =
      .ok { client := some h
            pendingActions := []
            sent := st.sent ++ (st.pendingActions.map (opMsgs h)).flatten
                      ++ [.initPanel, .showChatPanel] } := by
  constructor
  · intro op hc
    simp [invokeHostOp, hc]
  · simp [initChatPanel, flushPending_ok h ops h08, h08]

theorem deferred_actions_flushed_in_order_witness :
    lookupKey exHandle08 "0.8.0" = some ["init", "updateTheme", "updateActiveSelection",
      "addRelevantContext", "executeCommand", "navigate"] ∧
    ((∀ op : HostOp, exPendingState.client = none →
      invokeHostOp op exPendingState =
        .ok { exPendingState with pendingActions := exPendingState.pendingActions ++ [op] }) ∧
    initChatPanel exHandle08 exPendingState =
      .ok { client := some exHandle08
            pendingActions := []
            sent := exPendingState.sent
                      ++ (exPendingState.pendingActions.map (opMsgs exHandle08)).flatten
                      ++ [.initPanel, .showChatPanel] }) :=
  ⟨by decide,
   deferred_actions_flushed_in_order exHandle08 exPendingState
     ["init", "updateTheme", "updateActiveSelection", "addRelevantContext",
      "executeCommand", "navigate"] (by decide)⟩

/-- **C2.** The capability check returns true iff some version key `w`
present on the client handle is a valid semantic version with
`w ≥ v` that exposes the operation (under the additive-capability
assumption `hAdd`, mirrored from the `ServerApiList` typing, that every
valid key at or above `"0.10.0"` exposes `addRelevantContext`); and
invoking an operation whose owning version key is absent from the
handle dispatches nothing and never raises an error. -/
theorem capability_check_and_silent_skip (client : ApiHandle) (v opName : String)
    (ops : List String) (h08 : lookupKey client "0.8.0" = some ops)
    (hAdd : ∀ e ∈ client, semverValid e.1 = true → isCompatible e.1 "0.10.0" = true →
      e.2.contains "addRelevantContext" = true) :
    (hasCapability (some client) v opName = true ↔
      ∃ w wops, (w, wops) ∈ client ∧ semverValid w = true ∧ SemverGe w v ∧
        wops.contains opName = true) ∧
    (isTerminalContextEnabled (some client) =
      hasCapability (some client) "0.10.0" "addRelevantContext") ∧
    (∀ op : HostOp, ∃ msgs, performOp client op = .ok msgs ∧
      (lookupKey client (versionKeyOf op) = none → msgs = [])) := by
  refine ⟨?_, ?_, ?_⟩
  · simp only [hasCapability, Option.getD_some, List.any_eq_true, Bool.and_eq_true]
    constructor
    · rintro ⟨⟨w, wops⟩, hmem, ⟨hval, hcompat⟩, hops⟩
      exact ⟨w, wops, hmem, hval, (isCompatible_iff w v).mp hcompat, hops⟩
    · rintro ⟨w, wops, hmem, hval, hge, hops⟩
      exact ⟨⟨w, wops⟩, hmem, ⟨hval, (isCompatible_iff w v).mpr hge⟩, hops⟩
  · rw [Bool.eq_iff_iff]
    simp only [isTerminalContextEnabled, getApiVersions, Option.getD_some, hasCapability,
      List.any_eq_true, List.mem_filter, List.mem_map, Bool.and_eq_true]
    constructor
    · rintro ⟨w, ⟨⟨e, hmem, hfst⟩, hval⟩, hcompat⟩
      exact ⟨e, hmem, ⟨hfst ▸ hval, hfst ▸ hcompat⟩,
        hAdd e hmem (hfst ▸ hval) (hfst ▸ hcompat)⟩
    · rintro ⟨e, hmem, ⟨hval, hcompat⟩, _⟩
      exact ⟨e.1, ⟨⟨e, hmem, rfl⟩, hval⟩, hcompat⟩
  · intro op
    cases op with
    | setActiveSelection sel =>
      refine ⟨opMsgs client (.setActiveSelection sel), performOp_ok client ops h08 _, ?_⟩
      intro hn
      rw [versionKeyOf] at hn
      rw [h08] at hn
      cases hn
    | addRelevantContext ctx =>
      refine ⟨opMsgs client (.addRelevantContext ctx), performOp_ok client ops h08 _, ?_⟩
      intro hn
      cases ctx with
      | terminal p =>
        simp [versionKeyOf, EditorCtx.isTerminal] at hn
        simp [opMsgs, EditorCtx.isTerminal, hn]
      | file p =>
        simp [versionKeyOf, EditorCtx.isTerminal] at hn
        simp [h08] at hn
    | executeCommand cmd =>
      refine ⟨opMsgs client (.executeCommand cmd), performOp_ok client ops h08 _, ?_⟩
      intro hn
      by_cases hc : (cmd == "explain-terminal") = true
      · simp [versionKeyOf, hc] at hn
        simp [opMsgs, hc, hn]
      · simp [versionKeyOf, hc] at hn
        simp [h08] at hn

theorem capability_check_and_silent_skip_witness :
    (lookupKey exHandle10 "0.8.0" = some ["init", "updateTheme", "updateActiveSelection",
      "addRelevantContext", "executeCommand", "navigate"]) ∧
    ((hasCapability (some exHandle10) "0.9.0" "addRelevantContext" = true ↔
      ∃ w wops, (w, wops) ∈ exHandle10 ∧ semverValid w = true ∧ SemverGe w "0.9.0" ∧
        wops.contains "addRelevantContext" = true) ∧
    (isTerminalContextEnabled (some exHandle10) =
      hasCapability (some exHandle10) "0.10.0" "addRelevantContext") ∧
    (∀ op : HostOp, ∃ msgs, performOp exHandle10 op = .ok msgs ∧
      (lookupKey exHandle10 (versionKeyOf op) = none → msgs = []))) :=
  ⟨by decide,
   capability_check_and_silent_skip exHandle10 "0.9.0" "addRelevantContext"
     ["init", "updateTheme", "updateActiveSelection", "addRelevantContext",
      "executeCommand", "navigate"] (by decide) (by decide)⟩

theorem jsGet?_cons (x : String × Int) (l : JsRecord) (k : String) :
    jsGet? (x :: l) k = if x.1 == k then some x.2 else jsGet? l k := by
  unfold jsGet?
  rw [List.find?_cons]
  by_cases h : (x.1 == k) = true <;> simp [h]

theorem jsGet?_map_update (r : JsRecord) (k : String) (v : Int) (k' : String) :
    jsGet? (r.map (fun e => if e.1 == k then (k, v) else e)) k' =
      if k' = k then (if jsHas r k then some v else none) else jsGet? r k' := by
  induction r with
  | nil =>
    simp only [List.map_nil]
    by_cases hk : k' = k <;> simp [jsGet?, jsHas, hk]
  | cons e rest ih =>
    simp only [List.map_cons]
    by_cases he : (e.1 == k) = true
    · have he' : e.1 = k := eq_of_beq he
      by_cases hk : k' = k
      · subst hk
        simp [jsGet?_cons, jsHas, he, he']
      · have h1 : (k == k') = false := by
          simpa using fun h => hk h.symm
        have h2 : (e.1 == k') = false := by
          rw [he']
          exact h1
        simp [jsGet?_cons, he, h1, h2, hk] at ih ⊢
        exact ih
    · by_cases he2 : (e.1 == k') = true
      · have hk : ¬ k' = k := fun h => he (h ▸ he2)
        simp [jsGet?_cons, he, he2, hk]
      · have hJ : jsHas (e :: rest) k = jsHas rest k := by
          simp [jsHas, jsGet?_cons, he]
        simp [jsGet?_cons, he, he2, hJ] at ih ⊢
        exact ih

theorem jsGet?_jsSet (r : JsRecord) (k : String) (v : Int) (k' : String) :
    jsGet? (jsSet r k v) k' = if k' = k then some v else jsGet? r k' := by
  unfold jsSet
  by_cases hhas : jsHas r k = true
  · rw [if_pos hhas, jsGet?_map_update, hhas]
    simp
  · rw [if_neg hhas]
    have hnone : r.find? (fun e => e.1 == k) = none := by
      cases hr : r.find? (fun e => e.1 == k) with
      | none => rfl
      | some x => exact absurd (by simp [jsHas, jsGet?, hr]) hhas
    unfold jsGet?
    rw [List.find?_append]
    by_cases hk : k' = k
    · subst hk
      rw [hnone]
      simp [List.find?]
    · have h1 : (k == k') = false := by
        simpa using fun h => hk h.symm
      have h2 : List.find? (fun e => e.1 == k') [(k, v)] = none := by
        simp [List.find?, h1]
      rw [h2, if_neg hk]
      cases hr : r.find? (fun e => e.1 == k') <;> simp [hr, Option.or]

theorem mapGet?_cons (x : String × JsRecord) (l : SessionMap) (k : String) :
    mapGet? (x :: l) k = if x.1 == k then some x.2 else mapGet? l k := by
  unfold mapGet?
  rw [List.find?_cons]
  by_cases h : (x.1 == k) = true <;> simp [h]

theorem mapGet?_mapSet_ne (m : SessionMap) (a b : String) (v : JsRecord)
    (hab : (a == b) = false) :
    mapGet? (mapSet m a v) b = mapGet? m b := by
  unfold mapSet
  by_cases hhas : (mapGet? m a).isSome = true
  · rw [if_pos hhas]
    clear hhas
    induction m with
    | nil => simp
    | cons e rest ih =>
      simp only [List.map_cons]
      by_cases he : (e.1 == a) = true
      · have he' : e.1 = a := eq_of_beq he
        have h2 : (e.1 == b) = false := by
          rw [he']
          exact hab
        simp [mapGet?_cons, he, h2, hab] at ih ⊢
        exact ih
      · by_cases he2 : (e.1 == b) = true <;>
          [skip; skip] <;>
          first
          | (simp [mapGet?_cons, he, he2] at ih ⊢; exact ih)
          | simp [mapGet?_cons, he, he2, ih]
  · rw [if_neg hhas]
    have h2 : List.find? (fun e => e.1 == b) [(a, v)] = none := by
      simp [List.find?, hab]
    unfold mapGet?
    rw [List.find?_append, h2]
    cases hr : m.find? (fun e => e.1 == b) <;> simp [hr, Option.or]


theorem fetch_foldl_get (s : JsRecord) (k : String) :
    ∀ (ks : List String) (acc : JsRecord),
      jsGet? (ks.foldl
          (fun filtered key =>
            if jsHas s key then jsSet filtered key ((jsGet? s key).getD 0) else filtered)
          acc) k
        = if k ∈ ks ∧ jsHas s k = true then jsGet? s k else jsGet? acc k
  | [], acc => by simp
  | key :: ks, acc => by
    rw [List.foldl_cons, fetch_foldl_get s k ks]
    by_cases hmem : k ∈ ks ∧ jsHas s k = true
    · rw [if_pos hmem, if_pos ⟨List.mem_cons_of_mem key hmem.1, hmem.2⟩]
    · rw [if_neg hmem]
      by_cases hk : k = key
      · subst hk
        by_cases hhas : jsHas s k = true
        · rw [if_pos hhas, if_pos ⟨List.mem_cons_self k ks, hhas⟩, jsGet?_jsSet, if_pos rfl]
          cases hg : jsGet? s k with
          | none => simp [jsHas, hg] at hhas
          | some x => rfl
        · rw [if_neg (by simpa using hhas)]
          rw [if_neg (by rintro ⟨_, h⟩; exact hhas h)]
      · have hmem2 : ¬(k ∈ key :: ks ∧ jsHas s k = true) := by
          rintro ⟨hin, hh⟩
          rcases List.mem_cons.mp hin with h | h
          · exact hk h
          · exact hmem ⟨h, hh⟩
        rw [if_neg hmem2]
        by_cases hhas : jsHas s key = true
        · rw [if_pos hhas, jsGet?_jsSet, if_neg hk]
        · rw [if_neg (by simpa using hhas)]

/-- **C7.** `fetchSessionState(keys)` with `keys` given returns the
endpoint-scoped state restricted to exactly the listed keys that are
present: a listed key reads back its stored value, an unlisted key is
absent, and a listed-but-missing key is absent rather than null-filled;
in particular `fetchSessionState(["a"])` after
`storeSessionState({a:1,b:2})` returns `{a:1}` only. -/
theorem fetch_session_state_restricts_keys :
    (∀ (st : SessionStore) (ks : List String) (k : String),
      jsGet? (fetchSessionState st (some ks)) k =
        if k ∈ ks then jsGet? (activePartition st) k else none) ∧
    fetchSessionState (storeSessionState ⟨some "e", []⟩ [("a", 1), ("b", 2)]) (some ["a"])
      = [("a", 1)] := by
  constructor
  · intro st ks k
    show jsGet? (ks.foldl _ []) k = _
    rw [fetch_foldl_get (activePartition st) k ks []]
    by_cases hmem : k ∈ ks
    · rw [if_pos hmem]
      by_cases hhas : jsHas (activePartition st) k = true
      · rw [if_pos ⟨hmem, hhas⟩]
      · rw [if_neg (by rintro ⟨_, h⟩; exact hhas h)]
        cases hg : jsGet? (activePartition st) k with
        | none => simp [jsGet?]
        | some x => exact absurd (by simp [jsHas, hg]) hhas
    · rw [if_neg hmem, if_neg (by rintro ⟨h, _⟩; exact hmem h)]
      simp [jsGet?]
  · decide

theorem fetchSessionState_congr (st1 st2 : SessionStore)
    (h : activePartition st1 = activePartition st2) :
    ∀ keys, fetchSessionState st1 keys = fetchSessionState st2 keys := by
  intro keys
  unfold fetchSessionState
  rw [h]

/-- **C8.** For distinct endpoint strings `A` and `B`, a
`storeSessionState` executed while the current endpoint is `A` leaves
the partition read under `B` unchanged: every fetch under `B` returns
exactly what it returned before the store, and a key absent from `B`'s
partition is still absent after storing it under `A`. -/
theorem session_state_isolated_per_endpoint (st : SessionStore) (A B : String)
    (rec : JsRecord) (keys : Option (List String)) (hAB : A ≠ B)
    (hcur : st.currentEndpoint = some A) :
    (fetchSessionState { storeSessionState st rec with currentEndpoint := some B } keys
      = fetchSessionState { st with currentEndpoint := some B } keys) ∧
    (∀ k, jsGet? (activePartition { st with currentEndpoint := some B }) k = none →
      jsGet? (fetchSessionState { storeSessionState st rec with currentEndpoint := some B }
        none) k = none) := by
  have hpart : activePartition { storeSessionState st rec with currentEndpoint := some B }
      = activePartition { st with currentEndpoint := some B } := by
    show ((mapGet? (storeSessionState st rec).sessionStateMap B).getD []) = _
    unfold storeSessionState
    rw [hcur]
    show (mapGet? (mapSet st.sessionStateMap A _) B).getD [] = _
    rw [mapGet?_mapSet_ne st.sessionStateMap A B _ (by simpa [beq_eq_false_iff_ne] using hAB)]
    rfl
  constructor
  · exact fetchSessionState_congr _ _ hpart keys
  · intro k hk
    have hfetch : fetchSessionState
        { storeSessionState st rec with currentEndpoint := some B } none
        = activePartition { storeSessionState st rec with currentEndpoint := some B } := rfl
    rw [hfetch, hpart]
    exact hk

theorem session_state_isolated_per_endpoint_witness :
    "a" ≠ "b" ∧
    (⟨some "a", []⟩ : SessionStore).currentEndpoint = some "a" ∧
    ((fetchSessionState
        { storeSessionState ⟨some "a", []⟩ [("k", 5)] with currentEndpoint := some "b" } none
      = fetchSessionState { (⟨some "a", []⟩ : SessionStore) with currentEndpoint := some "b" }
          none) ∧
    (∀ k, jsGet? (activePartition
        { (⟨some "a", []⟩ : SessionStore) with currentEndpoint := some "b" }) k = none →
      jsGet? (fetchSessionState
        { storeSessionState ⟨some "a", []⟩ [("k", 5)] with currentEndpoint := some "b" }
        none) k = none)) :=
  ⟨by decide, rfl,
   session_state_isolated_per_endpoint ⟨some "a", []⟩ "a" "b" [("k", 5)] none
     (by decide) rfl⟩

theorem listSize_eq_zero {q : List DocSymbolNode} (h : listSize q = 0) : q = [] := by
  cases q with
  | nil => rfl
  | cons c cs =>
    exfalso
    cases c <;> simp [listSize, nodeSize] at h

theorem listSize_append : ∀ (a b : List DocSymbolNode),
    listSize (a ++ b) = listSize a + listSize b
  | [], b => by simp [listSize]
  | c :: cs, b => by
    rw [List.cons_append]
    simp only [listSize]
    rw [listSize_append cs b]
    omega

theorem bfsTake_length_le : ∀ (f : Nat) (q : List DocSymbolNode),
    (bfsTake f q).length ≤ f
  | 0, _ => by simp [bfsTake]
  | f + 1, [] => by simp [bfsTake]
  | f + 1, cur :: rest => by
    cases cur with
    | doc n d r cs =>
      simpa [bfsTake] using Nat.succ_le_succ (bfsTake_length_le f (rest ++ cs))
    | info n c r =>
      simpa [bfsTake] using Nat.succ_le_succ (bfsTake_length_le f rest)

/-- The truncated BFS is the `take` of the full breadth-first
flattening, for any fuel at least the tree size. -/
theorem bfsTake_eq_take : ∀ (g : Nat) (q : List DocSymbolNode), listSize q ≤ g →
    ∀ (f : Nat), bfsTake f q = (bfsTake g q).take f := by
  intro g
  induction g with
  | zero =>
    intro q hq f
    have hnil : q = [] := listSize_eq_zero (Nat.le_zero.mp hq)
    subst hnil
    cases f <;> simp [bfsTake]
  | succ g ih =>
    intro q hq f
    cases q with
    | nil => cases f <;> simp [bfsTake]
    | cons cur rest =>
      cases f with
      | zero => simp [bfsTake]
      | succ f =>
        cases cur with
        | doc n d r cs =>
          have hsz : listSize (rest ++ cs) ≤ g := by
            simp only [listSize, nodeSize] at hq
            rw [listSize_append]
            omega
          simp [bfsTake, ih (rest ++ cs) hsz f]
        | info nm c r =>
          have hsz : listSize rest ≤ g := by
            simp only [listSize, nodeSize] at hq
            omega
          simp [bfsTake, ih rest hsz f]

/-- **C5.** With an empty query, `listSymbols` returns exactly the
first `limit` symbols of the breadth-first flattening of the active
document's symbol tree, in breadth-first order, independently of the
workspace symbol provider (no workspace search result can influence the
outcome); with `limit = 5` and eight top-level symbols, exactly five
items are returned. -/
theorem list_symbols_empty_query_bfs :
    (∀ (docSymbols : List DocSymbolNode) (filepath : String) (limitParam : Option Int)
       (ws ws' : Except String (List ListSymbolItem)),
      listSymbols "" limitParam (some (docSymbols, filepath)) ws
        = ((bfsFlatten docSymbols).take (effectiveLimit limitParam).toNat).map
            (symbolToItem filepath) ∧
      listSymbols "" limitParam (some (docSymbols, filepath)) ws
        = listSymbols "" limitParam (some (docSymbols, filepath)) ws') ∧
    (listSymbols "" (some 5) (some (exEightSymbols, "f"))
        (.ok [⟨"w", ⟨0, 0⟩, "w"⟩])).length = 5 := by
  refine ⟨fun docSymbols filepath limitParam ws ws' => ⟨?_, rfl⟩, by rfl⟩
  rw [show listSymbols "" limitParam (some (docSymbols, filepath)) ws
      = ((getDocumentSymbols (effectiveLimit limitParam).toNat docSymbols).take
          (effectiveLimit limitParam).toNat).map (symbolToItem filepath) from rfl]
  simp only [getDocumentSymbols, bfsFlatten]
  rw [List.take_of_length_le (bfsTake_length_le _ _),
    bfsTake_eq_take (listSize docSymbols) docSymbols le_rfl]

/-- **C10.** A missing, zero, or negative `limit` parameter makes
`listSymbols` behave exactly as with the default limit 20; in
particular a call with `limit = 0` on a document with 25 symbols
returns 20 items rather than none. -/
theorem list_symbols_limit_default_twenty :
    (∀ (q : String) (editor : Option (List DocSymbolNode × String))
       (ws : Except String (List ListSymbolItem)),
      listSymbols q none editor ws = listSymbols q (some 20) editor ws ∧
      listSymbols q (some 0) editor ws = listSymbols q (some 20) editor ws) ∧
    (∀ (n : Int), n < 0 → ∀ (q : String) (editor : Option (List DocSymbolNode × String))
       (ws : Except String (List ListSymbolItem)),
      listSymbols q (some n) editor ws = listSymbols q (some 20) editor ws) ∧
    (listSymbols "" (some 0) (some (exManySymbols, "f")) (.ok [])).length = 20 := by
  have hcongr : ∀ (a b : Option Int), effectiveLimit a = effectiveLimit b →
      ∀ (q : String) (editor : Option (List DocSymbolNode × String))
        (ws : Except String (List ListSymbolItem)),
      listSymbols q a editor ws = listSymbols q b editor ws := by
    intro a b h q editor ws
    cases editor with
    | none => rfl
    | some p =>
      cases p with
      | mk d fp =>
        simp only [listSymbols, h]
  refine ⟨fun q editor ws => ⟨?_, ?_⟩, fun n hn => ?_, by rfl⟩
  · exact hcongr none (some 20) rfl q editor ws
  · exact hcongr (some 0) (some 20) rfl q editor ws
  · intro q editor ws
    refine hcongr (some n) (some 20) ?_ q editor ws
    have hc : (n == 0 || decide (n < 0)) = true := by simp [hn]
    simp only [effectiveLimit, hc, if_true]
    rfl

theorem list_symbols_limit_default_twenty_witness :
    (-3 : Int) < 0 ∧
    listSymbols "x" (some (-3)) (some (exManySymbols, "f")) (.ok [])
      = listSymbols "x" (some 20) (some (exManySymbols, "f")) (.ok []) :=
  ⟨by decide,
   list_symbols_limit_default_twenty.2.1 (-3) (by decide) "x"
     (some (exManySymbols, "f")) (.ok [])⟩

theorem lookupSymbolGo_skip (dp : DefProvider) (symbol : String)
    (hint : LookupHint) (rest : List LookupHint)
    (hbad : hint.hasFilepath = false ∨ hint.uri = none ∨ ∃ e, hint.docResult = .error e) :
    lookupSymbolGo dp symbol (hint :: rest) = lookupSymbolGo dp symbol rest := by
  rcases hbad with h | h | ⟨e, h⟩
  · simp [lookupSymbolGo, h]
  · cases hf : hint.hasFilepath
    · simp [lookupSymbolGo, hf]
    · simp [lookupSymbolGo, hf, h]
  · cases hf : hint.hasFilepath
    · simp [lookupSymbolGo, hf]
    · cases hu : hint.uri with
      | none => simp [lookupSymbolGo, hf, hu]
      | some u => simp [lookupSymbolGo, hf, hu, h]

theorem lookupSymbolGo_none (dp : DefProvider) (symbol : String) :
    ∀ (hints : List LookupHint),
      (∀ hint ∈ hints, ∀ doc, hint.docResult = .ok doc →
        lookupInDocument dp symbol doc hint.location = none) →
      lookupSymbolGo dp symbol hints = none
  | [], _ => by simp [lookupSymbolGo]
  | hint :: rest, h => by
    have hrest := lookupSymbolGo_none dp symbol rest
      (fun h2 hm => h h2 (List.mem_cons_of_mem _ hm))
    cases hf : hint.hasFilepath
    · simp [lookupSymbolGo, hf, hrest]
    · cases hu : hint.uri with
      | none => simp [lookupSymbolGo, hf, hu, hrest]
      | some u =>
        cases hd : hint.docResult with
        | error e => simp [lookupSymbolGo, hf, hu, hd, hrest]
        | ok doc =>
          have hdoc := h hint (List.mem_cons_self _ _) doc hd
          simp [lookupSymbolGo, hf, hu, hd, hdoc, hrest]

/-- **C9.** `lookupSymbol` never propagates an error: a name that is
not a simple identifier returns `null` immediately; a hint with a falsy
filepath, an unresolvable filepath, or a document that fails to open is
skipped without affecting the processing of the remaining hints; and
when no hint yields a definition the result is `null`. -/
theorem lookup_symbol_never_errors (dp : DefProvider) (symbol : String)
    (hints : List LookupHint) :
    (isSimpleIdentifier symbol = false → lookupSymbol dp symbol hints = none) ∧
    (∀ (hint : LookupHint) (rest : List LookupHint),
      (hint.hasFilepath = false ∨ hint.uri = none ∨ (∃ e, hint.docResult = .error e)) →
      lookupSymbol dp symbol (hint :: rest) = lookupSymbol dp symbol rest) ∧
    ((∀ hint ∈ hints, ∀ doc, hint.docResult = .ok doc →
        lookupInDocument dp symbol doc hint.location = none) →
      lookupSymbol dp symbol hints = none) := by
  refine ⟨fun h => by simp [lookupSymbol, h], fun hint rest hbad => ?_, fun h => ?_⟩
  · unfold lookupSymbol
    cases hs : isSimpleIdentifier symbol
    · simp
    · simp only [Bool.not_true, Bool.false_eq_true, if_false]
      exact lookupSymbolGo_skip dp symbol hint rest hbad
  · unfold lookupSymbol
    cases hs : isSimpleIdentifier symbol
    · simp
    · simp only [Bool.not_true, Bool.false_eq_true, if_false]
      exact lookupSymbolGo_none dp symbol hints h

theorem lookup_symbol_never_errors_witness :
    isSimpleIdentifier "123" = false ∧
    lookupSymbol exDpNone "123" [exHintBad] = none ∧
    lookupSymbol exDpNone "x" [exHintBad, exHintBad] = lookupSymbol exDpNone "x" [exHintBad] ∧
    lookupSymbol exDpNone "x" [exHintBad] = none :=
  ⟨by decide,
   (lookup_symbol_never_errors exDpNone "123" [exHintBad]).1 (by decide),
   (lookup_symbol_never_errors exDpNone "x" [exHintBad, exHintBad]).2.1 exHintBad [exHintBad]
     (Or.inr (Or.inl (by decide))),
   (lookup_symbol_never_errors exDpNone "x" [exHintBad]).2.2 (by
     rintro hint hm doc hd
     rw [List.mem_singleton] at hm
     subst hm
     simp [exHintBad] at hd)⟩

theorem findSymbolInContent_offset_le (dp : DefProvider) (u : Nat)
    (pat content : List Char) (off : Nat) (s : SymbolInfo)
    (h : findSymbolInContent dp u pat content off = some s) :
    off ≤ s.sourceOffset := by
  unfold findSymbolInContent at h
  obtain ⟨i, hi, hf⟩ := List.exists_of_findSome?_eq_some h
  cases hd : dp u (off + i) with
  | nil =>
    rw [hd] at hf
    cases hf
  | cons loc locs =>
    rw [hd] at hf
    simp only [Option.some.injEq] at hf
    rw [← hf]
    exact Nat.le_add_right off i

/-- The claim as stated is false on the code: with a hint whose
location is the empty point at line 5 of a six-line document whose only
occurrence of `x` (with a known definition) is at offset 0 on line 0,
`lookupSymbol` still returns that occurrence — the windowed search from
line 5 finds nothing and the code falls back to scanning the full
document, so an occurrence before line 5 does yield the returned
`SymbolInfo`. -/
theorem lookup_symbol_window_counterexample :
    lookupSymbol exDp "x" [exHintLine5] = some ⟨0, 0, ⟨7, 0, 1⟩⟩ ∧
    (0 : Nat) < exDoc.offsetAt 5 0 := by
  constructor
  · decide
  · decide

/-- **C3 (amended).** With a hint whose location is present but empty
(a single point at line `n`), the search window is line `n` to
end-of-file: if the windowed search yields a result, that result is
returned and its occurrence lies at or after the offset of line `n`
(an occurrence before line `n` cannot win); only when the windowed
search yields nothing does the code fall back to scanning the full
document, where an occurrence before line `n` may then be returned. -/
theorem lookup_symbol_empty_point_window (dp : DefProvider) (document : TextDoc)
    (n c u : Nat) (symbol : String) (rest : List LookupHint)
    (hsym : isSimpleIdentifier symbol = true) :
    (∀ s, findSymbolInContent dp document.uri symbol.data
        (document.getText ⟨n, 0, document.lineCount, 0⟩) (document.offsetAt n 0) = some s →
      lookupSymbol dp symbol
          (⟨true, some u, .ok document, some (some ⟨n, c, n, c⟩)⟩ :: rest)
        = some s ∧ document.offsetAt n 0 ≤ s.sourceOffset) ∧
    (findSymbolInContent dp document.uri symbol.data
        (document.getText ⟨n, 0, document.lineCount, 0⟩) (document.offsetAt n 0) = none →
      lookupSymbol dp symbol
          (⟨true, some u, .ok document, some (some ⟨n, c, n, c⟩)⟩ :: rest)
        = match findSymbolInContent dp document.uri symbol.data document.fullText 0 with
          | some s => some s
          | none => lookupSymbolGo dp symbol rest) := by
  have hempty : (CRange.mk n c n c).isEmpty = true := by simp [CRange.isEmpty]
  constructor
  · intro s hws
    constructor
    · simp [lookupSymbol, hsym, lookupSymbolGo, lookupInDocument, hempty, hws]
    · exact findSymbolInContent_offset_le dp document.uri symbol.data _ _ s hws
  · intro hw
    simp only [lookupSymbol, hsym, Bool.not_true, Bool.false_eq_true, if_false,
      lookupSymbolGo, lookupInDocument, hempty, Bool.not_true, if_false, hw]

theorem lookup_symbol_empty_point_window_witness :
    isSimpleIdentifier "x" = true ∧
    findSymbolInContent exDpAfter exDocAfter.uri "x".data
      (exDocAfter.getText ⟨5, 0, exDocAfter.lineCount, 0⟩) (exDocAfter.offsetAt 5 0)
      = some ⟨0, 5, ⟨9, 0, 1⟩⟩ ∧
    (lookupSymbol exDpAfter "x"
        (⟨true, some 0, .ok exDocAfter, some (some ⟨5, 0, 5, 0⟩)⟩ :: ([] : List LookupHint))
      = some ⟨0, 5, ⟨9, 0, 1⟩⟩ ∧
      exDocAfter.offsetAt 5 0 ≤ (⟨0, 5, ⟨9, 0, 1⟩⟩ : SymbolInfo).sourceOffset) :=
  ⟨by decide, by decide,
   (lookup_symbol_empty_point_window exDpAfter exDocAfter 5 0 0 "x" [] (by decide)).1
     ⟨0, 5, ⟨9, 0, 1⟩⟩ (by decide)⟩

theorem changeChars_foldl : ∀ (l : List ChangeItem) (init : Int),
    l.foldl (fun count item => count + (item.content.length : Int)) init
      = init + (l.map (fun i => (i.content.length : Int))).sum
  | [], init => by simp
  | x :: xs, init => by
    rw [List.foldl_cons, changeChars_foldl xs]
    simp only [List.map_cons, List.sum_cons]
    omega

theorem changeChars_eq_sum (l : List ChangeItem) :
    changeChars l = (l.map (fun i => (i.content.length : Int))).sum := by
  have h := changeChars_foldl l 0
  rw [Int.zero_add] at h
  exact h

theorem changeChars_append (a b : List ChangeItem) :
    changeChars (a ++ b) = changeChars a + changeChars b := by
  simp [changeChars_eq_sum]

theorem changeChars_nonneg (l : List ChangeItem) : 0 ≤ changeChars l := by
  rw [changeChars_eq_sum]
  apply List.sum_nonneg
  intro x hx
  simp only [List.mem_map] at hx
  obtain ⟨i, _, hi⟩ := hx
  omega

theorem changeChars_map_mk (staged : Bool) (ds : List String) :
    changeChars (ds.map (fun d => ⟨d, staged⟩)) = sumDiffLen ds := by
  rw [changeChars_eq_sum, List.map_map]
  rfl

/-- First-fit-or-stop inside one diff list: the collected items are a
prefix of the diffs, cut exactly at the first diff that would push the
running count past the limit. -/
theorem collectDiffs_spec (staged : Bool) (l : Int) :
    ∀ (ds : List String) (c : Int), ∃ k, k ≤ ds.length ∧
      (collectDiffs staged (some l) ds c).1
        = (ds.take k).map (fun d => (⟨d, staged⟩ : ChangeItem)) ∧
      (collectDiffs staged (some l) ds c).2 = c + sumDiffLen (ds.take k) ∧
      (k < ds.length → l < c + sumDiffLen (ds.take k) + ((ds.getD k "").length : Int))
  | [], c => ⟨0, by simp [collectDiffs, sumDiffLen]⟩
  | d :: ds, c => by
    by_cases hc : c + (d.length : Int) > l
    · refine ⟨0, by simp, ?_, ?_, ?_⟩
      · simp [collectDiffs, hc]
      · simp [collectDiffs, hc, sumDiffLen]
      · intro _
        simpa [sumDiffLen] using hc
    · obtain ⟨k, hk, hitems, hcnt, hstop⟩ := collectDiffs_spec staged l ds (c + d.length)
      have hred : collectDiffs staged (some l) (d :: ds) c
          = ((⟨d, staged⟩ : ChangeItem) :: (collectDiffs staged (some l) ds (c + d.length)).1,
             (collectDiffs staged (some l) ds (c + d.length)).2) := by
        simp [collectDiffs, hc]
      refine ⟨k + 1, by simpa using Nat.succ_le_succ hk, ?_, ?_, ?_⟩
      · rw [hred, List.take_succ_cons, List.map_cons, hitems]
      · rw [hred]
        simp only [List.take_succ_cons]
        rw [hcnt]
        simp [sumDiffLen]
        omega
      · intro hlt
        simp only [List.length_cons, Nat.succ_lt_succ_iff] at hlt
        have := hstop hlt
        simp only [List.take_succ_cons, List.getD_cons_succ]
        simp [sumDiffLen] at this ⊢
        omega

theorem collectDiffs_le (staged : Bool) (l : Int) :
    ∀ (ds : List String) (c : Int), c ≤ l →
      (collectDiffs staged (some l) ds c).2 ≤ l
  | [], c, h => h
  | d :: ds, c, h => by
    by_cases hc : c + (d.length : Int) > l
    · simpa [collectDiffs, hc] using h
    · have hrec := collectDiffs_le staged l ds (c + d.length) (by omega)
      have hred : (collectDiffs staged (some l) (d :: ds) c).2
          = (collectDiffs staged (some l) ds (c + d.length)).2 := by
        simp [collectDiffs, hc]
      rw [hred]
      exact hrec

theorem collectDiffs_snd_eq (staged : Bool) (l : Int) (ds : List String) (c : Int) :
    (collectDiffs staged (some l) ds c).2
      = c + changeChars (collectDiffs staged (some l) ds c).1 := by
  obtain ⟨k, _, hitems, hcnt, _⟩ := collectDiffs_spec staged l ds c
  rw [hitems, hcnt, changeChars_map_mk]

theorem getRepoChangesAux_le (staged : Bool) (l : Int) :
    ∀ (repos : List GitRepo) (c : Int), c ≤ l →
      c + changeChars (getRepoChangesAux staged (some l) repos c) ≤ l
  | [], c, h => by simpa [getRepoChangesAux, changeChars] using h
  | repo :: rest, c, h => by
    cases hd : repo.getDiff staged with
    | none =>
      have := getRepoChangesAux_le staged l rest c h
      simpa [getRepoChangesAux, hd] using this
    | some diffs =>
      have hc2 : (collectDiffs staged (some l) diffs c).2 ≤ l :=
        collectDiffs_le staged l diffs c h
      have hsnd := collectDiffs_snd_eq staged l diffs c
      by_cases hge : (collectDiffs staged (some l) diffs c).2 ≥ l
      · have hred : getRepoChangesAux staged (some l) (repo :: rest) c
            = (collectDiffs staged (some l) diffs c).1 := by
          simp [getRepoChangesAux, hd, hge]
        rw [hred]
        omega
      · have hred : getRepoChangesAux staged (some l) (repo :: rest) c
            = (collectDiffs staged (some l) diffs c).1
              ++ getRepoChangesAux staged (some l) rest
                  (collectDiffs staged (some l) diffs c).2 := by
          simp [getRepoChangesAux, hd, hge]
        have hrec := getRepoChangesAux_le staged l rest
          (collectDiffs staged (some l) diffs c).2 hc2
        rw [hred, changeChars_append]
        omega

theorem getRepoChanges_budget (repos : List GitRepo) (staged : Bool) (l : Int)
    (hl : 0 ≤ l) : changeChars (getRepoChanges repos staged (some l)) ≤ l := by
  have hred : getRepoChanges repos staged (some l)
      = if l ≤ 0 then [] else getRepoChangesAux staged (some l) repos 0 := rfl
  rw [hred]
  by_cases h0 : l ≤ 0
  · rw [if_pos h0]
    show changeChars [] ≤ l
    simp [changeChars]
    omega
  · rw [if_neg h0]
    simpa using getRepoChangesAux_le staged l repos 0 hl

/-- The claim as stated is false on the code: with a 50-character
budget and two repositories whose staged diffs are 60 and 30 characters
respectively, the over-budget 60-character diff stops only the first
repository's diff list — the second repository's 30-character diff is
still collected, so the phase does not "stop entirely" at the first
diff that would exceed the budget. -/
theorem get_changes_stop_entirely_counterexample :
    getChanges true (some exRepoPair) (some 50) = [⟨exD30, true⟩] ∧
    (50 : Int) < (0 : Int) + (exD60.length : Int) := by
  constructor
  · decide
  · decide

/-- **C4 (amended).** `getChanges(maxChars)` collects staged diffs
first and unstaged diffs second under a budget of `maxChars` minus the
characters consumed by staged diffs; within a phase, diffs are
processed in repository and diff-list order, and the first diff that
would exceed the remaining budget stops collection for the current
repository's diff list (no partial truncation and no skipping ahead
within a repository) — subsequent repositories are still processed
unless the characters collected so far have reached the budget; the
total collected characters never exceed a non-negative budget; and with
`maxChars = 100`, staged diffs totalling 80 characters and one unstaged
diff of 50 characters, the result is exactly the staged diffs and zero
unstaged diffs. -/
theorem get_changes_first_fit_per_repo :
    (∀ (staged : Bool) (l : Int) (ds : List String) (c : Int), ∃ k, k ≤ ds.length ∧
      (collectDiffs staged (some l) ds c).1
        = (ds.take k).map (fun d => (⟨d, staged⟩ : ChangeItem)) ∧
      (collectDiffs staged (some l) ds c).2 = c + sumDiffLen (ds.take k) ∧
      (k < ds.length → l < c + sumDiffLen (ds.take k) + ((ds.getD k "").length : Int))) ∧
    (∀ (repos : List GitRepo) (m : Int),
      getChanges true (some repos) (some m)
        = getRepoChanges repos true (some m)
          ++ getRepoChanges repos false
              (some (m - changeChars (getRepoChanges repos true (some m))))) ∧
    (∀ (repos : List GitRepo) (m : Int), 0 ≤ m →
      changeChars (getChanges true (some repos) (some m)) ≤ m) ∧
    getChanges true (some exRepoSingle) (some 100) = [⟨exD80, true⟩] := by
  refine ⟨fun staged l ds c => collectDiffs_spec staged l ds c,
    fun repos m => rfl, fun repos m hm => ?_, by decide⟩
  rw [show getChanges true (some repos) (some m)
      = getRepoChanges repos true (some m)
        ++ getRepoChanges repos false
            (some (m - changeChars (getRepoChanges repos true (some m)))) from rfl]
  rw [changeChars_append]
  have hstaged : changeChars (getRepoChanges repos true (some m)) ≤ m :=
    getRepoChanges_budget repos true m hm
  have hstagednn : 0 ≤ changeChars (getRepoChanges repos true (some m)) :=
    changeChars_nonneg _
  have hunstaged : changeChars (getRepoChanges repos false
      (some (m - changeChars (getRepoChanges repos true (some m)))))
      ≤ m - changeChars (getRepoChanges repos true (some m)) :=
    getRepoChanges_budget repos false _ (by omega)
  omega

theorem get_changes_first_fit_per_repo_witness :
    (0 : Int) ≤ 100 ∧
    changeChars (getChanges true (some exRepoSingle) (some 100)) ≤ 100 :=
  ⟨by decide, get_changes_first_fit_per_repo.2.2.1 exRepoSingle 100 (by decide)⟩

theorem mem_stableInsert (le : ListSymbolItem → ListSymbolItem → Bool)
    (x : ListSymbolItem) : ∀ (l : List ListSymbolItem) (z : ListSymbolItem),
      z ∈ stableInsert le x l ↔ z = x ∨ z ∈ l
  | [], z => by simp [stableInsert]
  | y :: ys, z => by
    by_cases h : le y x = true
    · simp only [stableInsert, h, if_true, List.mem_cons, mem_stableInsert le x ys z]
      tauto
    · simp only [stableInsert, h, Bool.false_eq_true, if_false, List.mem_cons]

theorem stableInsert_pairwise (le : ListSymbolItem → ListSymbolItem → Bool)
    (htotal : ∀ a b, le a b = true ∨ le b a = true)
    (htrans : ∀ a b c, le a b = true → le b c = true → le a c = true)
    (x : ListSymbolItem) :
    ∀ (l : List ListSymbolItem), l.Pairwise (fun a b => le a b = true) →
      (stableInsert le x l).Pairwise (fun a b => le a b = true)
  | [], _ => by simp [stableInsert]
  | y :: ys, hp => by
    rcases List.pairwise_cons.mp hp with ⟨hy, hys⟩
    by_cases h : le y x = true
    · simp only [stableInsert, h, if_true]
      refine List.pairwise_cons.mpr ⟨?_, stableInsert_pairwise le htotal htrans x ys hys⟩
      intro z hz
      rcases (mem_stableInsert le x ys z).mp hz with rfl | hzys
      · exact h
      · exact hy z hzys
    · have hxy : le x y = true := by
        rcases htotal x y with h2 | h2
        · exact h2
        · exact absurd h2 h
      simp only [stableInsert, h, Bool.false_eq_true, if_false]
      refine List.pairwise_cons.mpr ⟨?_, hp⟩
      intro z hz
      rcases List.mem_cons.mp hz with rfl | hzys
      · exact hxy
      · exact htrans x y z hxy (hy z hzys)

theorem jsSortStable_pairwise (le : ListSymbolItem → ListSymbolItem → Bool)
    (htotal : ∀ a b, le a b = true ∨ le b a = true)
    (htrans : ∀ a b c, le a b = true → le b c = true → le a c = true)
    (items : List ListSymbolItem) :
    (jsSortStable le items).Pairwise (fun a b => le a b = true) := by
  have haux : ∀ (l acc : List ListSymbolItem),
      acc.Pairwise (fun a b => le a b = true) →
      (l.foldl (fun acc x => stableInsert le x acc) acc).Pairwise
        (fun a b => le a b = true) := by
    intro l
    induction l with
    | nil => exact fun acc h => h
    | cons x xs ih =>
      intro acc h
      exact ih _ (stableInsert_pairwise le htotal htrans x acc h)
  exact haux items [] (by simp)

theorem sortLe_total (q : String) (a b : ListSymbolItem) :
    sortLe q a b = true ∨ sortLe q b a = true := by
  unfold sortLe
  rcases lt_trichotomy (getMatchScore q a.label) (getMatchScore q b.label) with h | h | h
  · right
    simp [h]
  · rcases Nat.le_total a.label.length b.label.length with hl | hl
    · left
      simp [h, hl]
    · right
      simp [h, hl]
  · left
    simp [h]

theorem sortLe_trans (q : String) (a b c : ListSymbolItem)
    (h1 : sortLe q a b = true) (h2 : sortLe q b c = true) : sortLe q a c = true := by
  simp only [sortLe, Bool.or_eq_true, Bool.and_eq_true, decide_eq_true_eq,
    beq_iff_eq] at h1 h2 ⊢
  omega

theorem dedupAux_eq_dedupFirst : ∀ (items : List ListSymbolItem) (seen : List String),
    dedupAux seen items
      = dedupFirst (items.filter (fun x => !(seen.contains (dedupKey x))))
  | [], seen => by
    rw [List.filter_nil, show dedupAux seen [] = [] from rfl]
    simp [dedupFirst]
  | x :: rest, seen => by
    rw [show dedupAux seen (x :: rest)
        = if seen.contains (dedupKey x) = true then dedupAux seen rest
          else x :: dedupAux (dedupKey x :: seen) rest from rfl]
    rw [List.filter_cons]
    cases hseen : seen.contains (dedupKey x) with
    | true =>
      simp only [Bool.not_true, Bool.false_eq_true, if_false, eq_self_iff_true, if_true]
      exact dedupAux_eq_dedupFirst rest seen
    | false =>
      simp only [Bool.not_false, Bool.false_eq_true, if_false, eq_self_iff_true, if_true]
      rw [dedupAux_eq_dedupFirst rest (dedupKey x :: seen)]
      simp only [dedupFirst]
      rw [List.filter_filter]
      simp only [List.contains_cons, Bool.not_or]

theorem mergeResults_eq (localItems wsItems : List ListSymbolItem) (q : String)
    (limit : Nat) :
    mergeResults localItems wsItems q limit
      = (jsSortStable (sortLe q) (dedupFirst (localItems ++ wsItems))).take limit := by
  rw [show mergeResults localItems wsItems q limit
      = (jsSortStable (sortLe q) (dedupAux [] (localItems ++ wsItems))).take limit from rfl]
  rw [dedupAux_eq_dedupFirst (localItems ++ wsItems) []]
  rw [show (fun (x : ListSymbolItem) => !(([] : List String).contains (dedupKey x)))
      = (fun _ => true) from funext (fun x => rfl)]
  rw [List.filter_true]

theorem mergeResults_pairwise (q : String) (localItems wsItems : List ListSymbolItem)
    (limit : Nat) :
    (mergeResults localItems wsItems q limit).Pairwise
      (fun a b => sortLe q a b = true) :=
  List.Pairwise.sublist (List.take_sublist _ _)
    (jsSortStable_pairwise (sortLe q) (sortLe_total q) (sortLe_trans q) _)

/-- The claim as stated is false on the code: in the template literal
building the dedup key, `item.filepath` is a `Filepath` object and
renders as the constant `"[object Object]"`, so filepath never
participates in deduplication.  A local item `("local.ts", "foo",
1, 2)` and a workspace item `("ws.ts", "foo", 1, 2)` have different
composite keys — their filepaths differ — yet share the rendered key
`"[object Object]-foo-1-2"`, so only the first appears in the result
instead of both. -/
theorem list_symbols_dedup_key_collision :
    listSymbols "foo" (some 20) (some ([.info "foo" none ⟨1, 2⟩], "local.ts"))
        (.ok [exCollideWs])
      = [exCollideLocal] ∧
    exCollideLocal.filepath ≠ exCollideWs.filepath ∧
    dedupKey exCollideLocal = dedupKey exCollideWs := by
  refine ⟨by decide, by decide, by decide⟩

/-- **C6 (amended).** For every `listSymbols` call with a non-empty
query, the result is the local (filtered) results concatenated before
the workspace results, deduplicated keeping the first occurrence by the
rendered key string `[object Object]-label-start-end` — the filepath
object interpolates as a constant, so deduplication discriminates by
label and range only, conflating items from different files — then
stably sorted descending by
the 4-level match score (case-insensitive exact = 3, prefix = 2,
substring = 1, none = 0) with ties broken by shorter label first, then
truncated to the limit; every result is sorted under that order, and
with local `foo` and workspace `Foo` both appear with `foo` ranked
first. -/
theorem list_symbols_merge_sorted :
    (∀ (q : String) (limitParam : Option Int) (docSymbols : List DocSymbolNode)
       (filepath : String) (ws : List ListSymbolItem),
      (q == "") = false →
      listSymbols q limitParam (some (docSymbols, filepath)) (.ok ws)
        = (jsSortStable (sortLe q) (dedupFirst
            ((filterSymbols (getDocumentSymbols (effectiveLimit limitParam).toNat
                docSymbols) q).map (symbolToItem filepath) ++ ws))).take
            (effectiveLimit limitParam).toNat) ∧
    (∀ (q : String) (localItems wsItems : List ListSymbolItem) (limit : Nat),
      (mergeResults localItems wsItems q limit).Pairwise
        (fun a b => sortLe q a b = true)) ∧
    listSymbols "foo" (some 20) (some ([.info "foo" none ⟨1, 2⟩], "local.ts"))
        (.ok [exFooWs])
      = [⟨"local.ts", ⟨1, 2⟩, "foo"⟩, exFooWs] := by
  refine ⟨fun q limitParam docSymbols filepath ws hq => ?_, mergeResults_pairwise,
    by decide⟩
  have hred : listSymbols q limitParam (some (docSymbols, filepath)) (.ok ws)
      = mergeResults
          ((filterSymbols (getDocumentSymbols (effectiveLimit limitParam).toNat
            docSymbols) q).map (symbolToItem filepath)) ws q
          (effectiveLimit limitParam).toNat := by
    simp only [listSymbols, hq, Bool.false_eq_true, if_false, getWorkspaceSymbols]
  rw [hred, mergeResults_eq]

theorem list_symbols_merge_sorted_witness :
    ("foo" == "") = false ∧
    listSymbols "foo" (some 20) (some ([.info "foo" none ⟨1, 2⟩], "local.ts"))
        (.ok [exFooWs])
      = (jsSortStable (sortLe "foo") (dedupFirst
          ((filterSymbols (getDocumentSymbols (effectiveLimit (some 20)).toNat
              [.info "foo" none ⟨1, 2⟩]) "foo").map (symbolToItem "local.ts")
            ++ [exFooWs]))).take (effectiveLimit (some 20)).toNat :=
  ⟨by decide,
   list_symbols_merge_sorted.1 "foo" (some 20) [.info "foo" none ⟨1, 2⟩] "local.ts"
     [exFooWs] (by decide)⟩

end TabbyChat
